import Mathlib

set_option maxRecDepth 40000

/-!
Verification of the cryptographic core of the cipher0 password vault.

The Go source is shallowly embedded: byte strings become `List Nat`
(a "byte" is a natural number; where byte-range matters a `< 256`
hypothesis is carried), fallible functions return `Except GoError`,
and the stateful OS keyring becomes explicit state passing over a
`KeyringBackend` value.  External libraries (AES-GCM, Argon2, SHA-256,
go-bip39, base64) are modelled as ideal injective primitives with the
functional contracts the source relies on; the length bookkeeping of the
real primitives (12-byte nonce, 16-byte tag, 32-byte keys and hashes) is
preserved exactly.
-/

/-- Digit base of the injective list encoding.  A large base keeps the digit
lists short, so the kernel can evaluate the encoding on concrete inputs. -/
def encBase : Nat := 18446744073709551616

/-- Fuel-driven base-`encBase` digit expansion (structural recursion on the
fuel so that the kernel can evaluate it on large literals). -/
def encNatAux : Nat → Nat → List Nat
  | 0, _ => []
  | fuel + 1, n => if n = 0 then [] else (n % encBase) :: encNatAux fuel (n / encBase)

/-- Base-`encBase` digits of a natural number, least significant first, with
no trailing zeros (`encNat 0 = []`).  Every digit is below `encBase`. -/
def encNat (n : Nat) : List Nat := encNatAux n n

/-- Value of a base-`encBase` digit list, least significant digit first. -/
def bitsVal : List Nat → Nat
  | [] => 0
  | d :: t => d + encBase * bitsVal t

/-- Digit stream serialising a list of naturals: each element is written as
its base-`encBase` digits followed by the terminator digit `encBase`. -/
def encStream : List Nat → List Nat
  | [] => []
  | n :: t => encNat n ++ encBase :: encStream t

/-- Value of a base-`encBase + 1` digit list, least significant digit
first. -/
def quadVal : List Nat → Nat
  | [] => 0
  | d :: t => d + (encBase + 1) * quadVal t

/-- Injective code of a byte list as a single natural number: the base-4
value of its digit stream.  This is the workhorse used to model ideal
(collision-free) cryptographic primitives. -/
def byteCode (l : List Nat) : Nat := quadVal (encStream l)

/-- Errors of the embedded Go code.  Each constructor corresponds to one of
the sentinel `errors.New` values of the source (`ErrInvalidKey`,
`ErrInvalidCiphertext`, `ErrDecryptionFailed`, `ErrMEKDecryptionFailed`,
`ErrInvalidMnemonic`, `ErrKeyringNotAvailable`, `ErrKeyringSecretNotFound`,
`ErrClipboardUnavailable`). -/
inductive GoError
  | invalidKey
  | invalidCiphertext
  | decryptionFailed
  | mekDecryptionFailed
  | invalidMnemonic
  | keyringNotAvailable
  | keyringSecretNotFound
  | clipboardUnavailable
  deriving DecidableEq, Repr

/-- KeySize is the AES-256 key size in bytes (src/internal/crypto, `KeySize`). -/
def KeySize : Nat := 32

/-- NonceSize is the GCM nonce size in bytes (src/internal/crypto, `NonceSize`). -/
def NonceSize : Nat := 12

/-- Ideal model of the 16-byte AES-GCM authentication tag produced by the Go
standard library `cipher.NewGCM`.  The real tag is a pseudorandom function of
key, nonce, AAD and ciphertext; the model makes it an injective function of
the same four inputs (collisions, which real GCM admits only with negligible
probability, do not occur in the model), keeping the 16-entry length. -/
def gcmTag (key nonce aad ct : List Nat) : List Nat :=
  byteCode key :: byteCode nonce :: byteCode aad :: byteCode ct :: List.replicate 12 0

/-- Ideal model of `gcm.Seal(nil, nonce, plaintext, aad)` from the Go standard
library: ciphertext body followed by the 16-byte tag.  Confidentiality is not
modelled (no claim concerns it), so the ciphertext body equals the plaintext;
authenticity and all length accounting are modelled exactly. -/
def gcmSealData (key nonce plaintext aad : List Nat) : List Nat :=
  plaintext ++ gcmTag key nonce aad plaintext

/-- Ideal model of `gcm.Open(nil, nonce, data, aad)`: split off the 16-byte
tag, recompute it and compare; `none` models the authentication error. -/
def gcmOpenData (key nonce data aad : List Nat) : Option (List Nat) :=
  if data.length < 16 then none
  else
    let ct := data.take (data.length - 16)
    let tag := data.drop (data.length - 16)
    if tag = gcmTag key nonce aad ct then some ct else none

/-- src/internal/crypto encryption: `Encrypt(plaintext, key)` encrypts with
AES-256-GCM under a freshly drawn 12-byte nonce and returns
`nonce || ciphertext || tag`.  The nonce drawn from the OS CSPRNG is passed
explicitly.  The GCM AAD is the hardwired `nil` of the source. -/
def Encrypt (plaintext key nonce : List Nat) : Except GoError (List Nat) :=
  if key.length ≠ KeySize then .error .invalidKey
  else .ok (nonce ++ gcmSealData key nonce plaintext [])

/-- src/internal/crypto encryption: `Decrypt(ciphertext, key)` splits off the
12-byte nonce and opens the rest with GCM (AAD again the source's `nil`). -/
def Decrypt (ciphertext key : List Nat) : Except GoError (List Nat) :=
  if key.length ≠ KeySize then .error .invalidKey
  else if ciphertext.length < NonceSize + 16 then .error .invalidCiphertext
  else
    match gcmOpenData key (ciphertext.take NonceSize) (ciphertext.drop NonceSize) [] with
    | some plaintext => .ok plaintext
    | none => .error .decryptionFailed

/-- Modelled from the spec: `EncryptWithAAD` is repository code whose
implementation is not under src/ (only its tests in encryption_test.go are).
Spec §4.2: `Seal(plaintext, key[32], aad?) → blob` — fail `InvalidKey` unless
the key is 32 bytes, draw a 12-byte random nonce, compute GCM over the
plaintext with AAD `aad`, output `nonce || ct || tag`. -/
def EncryptWithAAD (plaintext key aad nonce : List Nat) : Except GoError (List Nat) :=
  if key.length ≠ KeySize then .error .invalidKey
  else .ok (nonce ++ gcmSealData key nonce plaintext aad)

/-- Modelled from the spec: `DecryptWithAAD` is repository code whose
implementation is not under src/ (only its tests in encryption_test.go are).
Spec §4.2: `Open(blob, key[32], aad?)` — `InvalidKey` on wrong key length,
`InvalidCiphertext` on blobs shorter than 28 bytes, `DecryptionFailed` on tag
mismatch OR AAD mismatch OR wrong key. -/
def DecryptWithAAD (ciphertext key aad : List Nat) : Except GoError (List Nat) :=
  if key.length ≠ KeySize then .error .invalidKey
  else if ciphertext.length < NonceSize + 16 then .error .invalidCiphertext
  else
    match gcmOpenData key (ciphertext.take NonceSize) (ciphertext.drop NonceSize) aad with
    | some plaintext => .ok plaintext
    | none => .error .decryptionFailed

/-- Argon2id parameters from src/internal/crypto (kdf): time 5, memory 256*1024
KiB, 4 threads, 32-byte output, 32-byte salts. -/
def Argon2Time : Nat := 5

def Argon2Memory : Nat := 256 * 1024

def Argon2Threads : Nat := 4

def Argon2KeyLen : Nat := 32

def SaltSize : Nat := 32

/-- Ideal model of `argon2.IDKey` from golang.org/x/crypto: a deterministic
function of password, salt and parameters whose 32-byte output is injective
in the (password, salt) pair — real Argon2id collisions are computationally
infeasible and do not occur in the model.  The output length contract
(`keyLen` entries) is preserved exactly. -/
def argon2IDKey (password salt : List Nat) (time memory threads keyLen : Nat) : List Nat :=
  byteCode [byteCode password, byteCode salt, time, memory, threads]
    :: List.replicate (keyLen - 1) 0

/-- src/internal/crypto kdf: `DeriveKey(password, salt)` — Argon2id with the
fixed parameters. -/
def DeriveKey (password salt : List Nat) : List Nat :=
  argon2IDKey password salt Argon2Time Argon2Memory Argon2Threads Argon2KeyLen

/-- src/internal/crypto kdf: `DeriveKeyWithKeyring(password, salt, keyringSecret)`
— Argon2id over the concatenation `password || keyringSecret`. -/
def DeriveKeyWithKeyring (password salt keyringSecret : List Nat) : List Nat :=
  argon2IDKey (password ++ keyringSecret) salt Argon2Time Argon2Memory Argon2Threads Argon2KeyLen

/-- Ideal model of `sha256.Sum256` from the Go standard library: an injective
function of the input with a 32-byte output (real collisions are
computationally infeasible and absent from the model). -/
def sha256Sum (data : List Nat) : List Nat :=
  byteCode data :: List.replicate 31 0

/-- Model of Go `unicode.IsSpace` restricted to the ASCII space characters
(the only ones the embedded strings contain). -/
def goIsSpace (c : Char) : Bool :=
  c = ' ' || c = '\t' || c = '\n' || c = '\x0b' || c = '\x0c' || c = '\r'

/-- Model of Go `strings.ToLower` on a single character (ASCII case mapping;
the repository's phrases and generated passwords are ASCII). -/
def goLowerChar (c : Char) : Char :=
  if 65 ≤ c.toNat ∧ c.toNat ≤ 90 then Char.ofNat (c.toNat + 32) else c

/-- One step of the field splitter: a space starts a new chunk, any other
character is prepended to the current head chunk. -/
def chunkStep (c : Char) (acc : List (List Char)) : List (List Char) :=
  if goIsSpace c then [] :: acc
  else
    match acc with
    | [] => [[c]]
    | w :: ws => (c :: w) :: ws

/-- Chunks of a character list: maximal runs separated by spaces, possibly
empty at the boundaries and between adjacent spaces. -/
def chunksRaw (l : List Char) : List (List Char) :=
  l.foldr chunkStep [[]]

/-- Model of Go `strings.Fields` at the character-list level: the non-empty
chunks. -/
def goFieldsList (l : List Char) : List (List Char) :=
  (chunksRaw l).filter (fun w => w ≠ [])

/-- Model of Go `strings.TrimSpace` at the character-list level. -/
def goTrimChars (l : List Char) : List Char :=
  ((l.dropWhile goIsSpace).reverse.dropWhile goIsSpace).reverse

/-- Model of Go `strings.Join(ws, " ")` at the character-list level. -/
def goJoinSpace : List (List Char) → List Char
  | [] => []
  | [w] => w
  | w :: ws => w ++ ' ' :: goJoinSpace ws

/-- Model of Go `strings.ToLower`. -/
def goToLower (s : String) : String :=
  String.mk (s.data.map goLowerChar)

/-- Model of Go `strings.Fields`. -/
def goFields (s : String) : List String :=
  (goFieldsList s.data).map String.mk

/-- src/internal/crypto/recovery.go `NormalizePhrase`: lowercase, trim,
collapse whitespace runs to single spaces
(`strings.Join(strings.Fields(strings.ToLower(strings.TrimSpace(p))), " ")`). -/
def NormalizePhrase (phrase : String) : String :=
  String.mk (goJoinSpace (goFieldsList ((goTrimChars phrase.data).map goLowerChar)))

/-- Ideal model of the go-bip39 mnemonic word alphabet: sixteen lowercase
letters `a`..`p` standing for a hex digit. -/
def bip39HexChar (n : Nat) : Char := Char.ofNat (97 + n % 16)

/-- Ideal model of a go-bip39 word: two alphabet characters encoding one
entropy byte. -/
def bip39WordChars (b : Nat) : List Char :=
  [bip39HexChar (b / 16), bip39HexChar b]

/-- Inverse of `bip39HexChar` on its image. -/
def bip39CharVal (c : Char) : Option Nat :=
  if 97 ≤ c.toNat ∧ c.toNat ≤ 112 then some (c.toNat - 97) else none

/-- Inverse of `bip39WordChars` on its image. -/
def bip39WordVal (w : List Char) : Option Nat :=
  match w with
  | [c1, c2] =>
    match bip39CharVal c1, bip39CharVal c2 with
    | some hi, some lo => some (hi * 16 + lo)
    | _, _ => none
  | _ => none

/-- Ideal model of the BIP-39 checksum over the entropy bytes (the real one
is the first 4 bits of SHA-256 of the entropy; the model keeps a 4-bit
deterministic function of the entropy). -/
def bip39Checksum (entropy : List Nat) : Nat :=
  (entropy.foldl (· + ·) 0) % 16

/-- Ideal model of go-bip39 `NewMnemonic`: the space-separated canonical
words of the entropy bytes followed by the checksum word. -/
def bip39NewMnemonic (entropy : List Nat) : String :=
  String.mk (goJoinSpace ((entropy ++ [bip39Checksum entropy]).map bip39WordChars))

/-- Ideal model of go-bip39 `IsMnemonicValid`: the words parse as 16 entropy
bytes plus a checksum word that matches. -/
def bip39IsMnemonicValid (s : String) : Bool :=
  match (goFieldsList s.data).mapM bip39WordVal with
  | some l => l.length == 17 && l.getLast? == some (bip39Checksum l.dropLast)
  | none => false

/-- Ideal model of go-bip39 `NewSeed(phrase, "")`: a 64-byte output injective
in the phrase (real PBKDF2-HMAC-SHA512 collisions are computationally
infeasible and absent from the model). -/
def bip39NewSeed (phrase passphrase : String) : List Nat :=
  byteCode (phrase.data.map Char.toNat)
    :: byteCode (passphrase.data.map Char.toNat) :: List.replicate 62 0

/-- src/internal/crypto/recovery.go `GenerateRecoveryPhrase`: 128 bits of
entropy (the 16 random bytes are passed explicitly) turned into a BIP-39
mnemonic. -/
def GenerateRecoveryPhrase (entropy : List Nat) : String :=
  bip39NewMnemonic entropy

/-- src/internal/crypto/recovery.go `ValidateRecoveryPhrase`. -/
def ValidateRecoveryPhrase (phrase : String) : Bool :=
  bip39IsMnemonicValid phrase

/-- src/internal/crypto/recovery.go `PhraseToKey`: normalize, validate
(`ErrInvalidMnemonic` on failure), then SHA-256 of the BIP-39 seed. -/
def PhraseToKey (phrase : String) : Except GoError (List Nat) :=
  let np := NormalizePhrase phrase
  if ¬ ValidateRecoveryPhrase np then .error .invalidMnemonic
  else .ok (sha256Sum (bip39NewSeed np ""))

/-- State of the OS keyring as seen through the source's `KeyringProvider`:
the credential store is either reachable — holding, possibly, the single
`(KeyringService, KeyringAccount)` entry the code ever uses — or unreachable
(locked/absent credential service). -/
inductive KeyringBackend
  | available (entry : Option String)
  | unavailable
  deriving DecidableEq, Repr

/-- Model of `KeyringProvider.Get` for both implementations in the source
(the zalando OS keyring and the in-memory mock): a missing entry yields the
not-found error, an unreachable store yields `ErrKeyringNotAvailable`. -/
def providerGet : KeyringBackend → Except GoError String
  | .available (some v) => .ok v
  | .available none => .error .keyringSecretNotFound
  | .unavailable => .error .keyringNotAvailable

/-- Model of `KeyringProvider.Set`: stores the value, or fails when the
credential store is unreachable. -/
def providerSet (kr : KeyringBackend) (v : String) : Except GoError KeyringBackend :=
  match kr with
  | .available _ => .ok (.available (some v))
  | .unavailable => .error .keyringNotAvailable

/-- Ideal model of `base64.StdEncoding.EncodeToString`: one character per
byte.  Injective on byte values (< 256); `base64Decode` is its inverse. -/
def base64Encode (bs : List Nat) : String := String.mk (bs.map Char.ofNat)

/-- Ideal model of `base64.StdEncoding.DecodeString`: inverse of
`base64Encode` (the decode-failure branch of the source is unreachable in
the model because every modelled stored value is an encoder image). -/
def base64Decode (s : String) : Except GoError (List Nat) :=
  .ok (s.data.map Char.toNat)

/-- src/internal/crypto/keyring.go `GetKeyringSecret`: fetch the entry,
collapse the two not-found errors, propagate any other error, base64-decode.
There is no length validation of the decoded secret. -/
def GetKeyringSecret (kr : KeyringBackend) : Except GoError (List Nat) :=
  match providerGet kr with
  | .error e =>
    if e = .keyringSecretNotFound then .error .keyringSecretNotFound else .error e
  | .ok s =>
    match base64Decode s with
    | .error e => .error e
    | .ok decoded => .ok decoded

/-- src/internal/crypto/keyring.go `CreateKeyringSecret`: generate 32 random
bytes (passed in as `freshSecret`), base64-encode and store them. -/
def CreateKeyringSecret (kr : KeyringBackend) (freshSecret : List Nat) :
    Except GoError (List Nat × KeyringBackend) :=
  match providerSet kr (base64Encode freshSecret) with
  | .error e => .error e
  | .ok kr2 => .ok (freshSecret, kr2)

/-- src/internal/crypto/keyring.go `GetOrCreateKeyringSecret`. -/
def GetOrCreateKeyringSecret (kr : KeyringBackend) (freshSecret : List Nat) :
    Except GoError (List Nat × KeyringBackend) :=
  match GetKeyringSecret kr with
  | .ok s => .ok (s, kr)
  | .error e =>
    if e = .keyringSecretNotFound then CreateKeyringSecret kr freshSecret
    else .error e

/-- Model of Go `[]byte(s)`: the character codes of the string (injective;
the exact UTF-8 byte layout is irrelevant to every claim). -/
def strBytes (s : String) : List Nat := s.data.map Char.toNat

/-- MEKSize is the size of the Master Encryption Key (src/internal/crypto/mek.go). -/
def MEKSize : Nat := 32

/-- src/internal/crypto/mek.go `EncryptMEK`. -/
def EncryptMEK (mek derivedKey nonce : List Nat) : Except GoError (List Nat) :=
  Encrypt mek derivedKey nonce

/-- src/internal/crypto/mek.go `DecryptMEK`: maps `ErrDecryptionFailed` to
`ErrMEKDecryptionFailed` and propagates every other error. -/
def DecryptMEK (encryptedMEK derivedKey : List Nat) : Except GoError (List Nat) :=
  match Decrypt encryptedMEK derivedKey with
  | .error e => if e = .decryptionFailed then .error .mekDecryptionFailed else .error e
  | .ok mek => .ok mek

/-- src/internal/crypto/mek.go `MEKBundle`. -/
structure MEKBundle where
  SaltPassword : List Nat
  SaltPhrase : List Nat
  EncryptedMEKPassword : List Nat
  EncryptedMEKPhrase : List Nat
  deriving DecidableEq, Repr

/-- src/internal/crypto/mek.go `CreateMEKBundle`: generate the MEK, the
recovery phrase, the two salts and (if absent) the keyring secret — all the
random draws are explicit arguments — derive both keys, encrypt the MEK
under each, and return the bundle plus the phrase.  A keyring failure aborts
(`keyring is required`); the wrapped error is propagated unchanged in the
model. -/
def CreateMEKBundle (kr : KeyringBackend) (mek entropy saltPassword saltPhrase
    freshSecret noncePassword noncePhrase : List Nat) (password : String) :
    Except GoError (MEKBundle × String × KeyringBackend) :=
  match GetOrCreateKeyringSecret kr freshSecret with
  | .error e => .error e
  | .ok (keyringSecret, kr2) =>
    match PhraseToKey (GenerateRecoveryPhrase entropy) with
    | .error e => .error e
    | .ok phraseKey =>
      match EncryptMEK mek
          (DeriveKeyWithKeyring (strBytes password) saltPassword keyringSecret)
          noncePassword with
      | .error e => .error e
      | .ok encryptedMEKPassword =>
        match EncryptMEK mek phraseKey noncePhrase with
        | .error e => .error e
        | .ok encryptedMEKPhrase =>
          .ok (⟨saltPassword, saltPhrase, encryptedMEKPassword, encryptedMEKPhrase⟩,
            GenerateRecoveryPhrase entropy, kr2)

/-- src/internal/crypto/mek.go `DecryptMEKWithPassword`: fetch the keyring
secret; on success derive with keyring, on ANY failure fall back to the
password-only derivation; then decrypt the password branch. -/
def MEKBundle.DecryptMEKWithPassword (b : MEKBundle) (kr : KeyringBackend)
    (password : String) : Except GoError (List Nat) :=
  match GetKeyringSecret kr with
  | .ok keyringSecret =>
    DecryptMEK b.EncryptedMEKPassword
      (DeriveKeyWithKeyring (strBytes password) b.SaltPassword keyringSecret)
  | .error _ =>
    DecryptMEK b.EncryptedMEKPassword (DeriveKey (strBytes password) b.SaltPassword)

/-- src/internal/crypto/mek.go `DecryptMEKWithPhrase`: derive the key from
the phrase (propagating `ErrInvalidMnemonic` unchanged) and decrypt the
phrase branch. -/
def MEKBundle.DecryptMEKWithPhrase (b : MEKBundle) (phrase : String) :
    Except GoError (List Nat) :=
  match PhraseToKey phrase with
  | .error e => .error e
  | .ok key => DecryptMEK b.EncryptedMEKPhrase key

/-- src/internal/crypto/mek.go `ReEncryptMEKWithNewPassword`: fresh salt,
get-or-create the keyring secret (continuing with the password-only
derivation if that fails), encrypt the MEK under the new key, and replace
only the password salt and password ciphertext of the bundle. -/
def MEKBundle.ReEncryptMEKWithNewPassword (b : MEKBundle) (kr : KeyringBackend)
    (newSalt freshSecret nonce mek : List Nat) (newPassword : String) :
    Except GoError (MEKBundle × KeyringBackend) :=
  match GetOrCreateKeyringSecret kr freshSecret with
  | .ok (keyringSecret, kr2) =>
    match EncryptMEK mek (DeriveKeyWithKeyring (strBytes newPassword) newSalt keyringSecret)
        nonce with
    | .error e => .error e
    | .ok newEncryptedMEK =>
      .ok ({ b with SaltPassword := newSalt, EncryptedMEKPassword := newEncryptedMEK }, kr2)
  | .error _ =>
    match EncryptMEK mek (DeriveKey (strBytes newPassword) newSalt) nonce with
    | .error e => .error e
    | .ok newEncryptedMEK =>
      .ok ({ b with SaltPassword := newSalt, EncryptedMEKPassword := newEncryptedMEK }, kr)

/-- src/internal/utils/password.go `GeneratorOptions` (`Length` is a Go
`int`, hence `Int`). -/
structure GeneratorOptions where
  Length : Int
  IncludeUppercase : Bool
  IncludeLowercase : Bool
  IncludeDigits : Bool
  IncludeSymbols : Bool
  ExcludeAmbiguous : Bool
  deriving DecidableEq, Repr

/-- src/internal/utils/password.go character class constants. -/
def lowercaseChars : List Char := "abcdefghijklmnopqrstuvwxyz".data

def uppercaseChars : List Char := "ABCDEFGHIJKLMNOPQRSTUVWXYZ".data

def digitChars : List Char := "0123456789".data

def symbolChars : List Char := "!@#$%^&*()_+-=[]\x7b\x7d|;:,.<>?".data

def ambiguousChars : List Char := "0O1lI".data

/-- src/internal/utils/password.go `GeneratePassword` charset construction:
concatenate the enabled classes, default to lowercase+digits when all are
disabled, then strip each ambiguous character
(`strings.ReplaceAll(charset, string(c), "")` per ambiguous character). -/
def buildCharset (includeLower includeUpper includeDigits includeSymbols
    excludeAmbiguous : Bool) : List Char :=
  let cs0 :=
    (if includeLower then lowercaseChars else [])
      ++ (if includeUpper then uppercaseChars else [])
      ++ (if includeDigits then digitChars else [])
      ++ (if includeSymbols then symbolChars else [])
  let cs1 := if cs0 = [] then lowercaseChars ++ digitChars else cs0
  if excludeAmbiguous then
    ambiguousChars.foldl (fun cs c => cs.filter (fun x => x ≠ c)) cs1
  else cs1

/-- src/internal/utils/password.go `GeneratePassword`: lengths below 1 are
replaced by the default 16, lengths above 128 are capped at 128; each output
character is drawn by `rand.Int(rand.Reader, charsetLen)` — the draws are the
explicit `draws` function, reduced modulo the charset size exactly as
`rand.Int` guarantees a value below the bound. -/
def GeneratePassword (opts : GeneratorOptions) (draws : Nat → Nat) : String :=
  let len : Nat :=
    if opts.Length < 1 then 16
    else if opts.Length > 128 then 128
    else opts.Length.toNat
  let charset := buildCharset opts.IncludeLowercase opts.IncludeUppercase
    opts.IncludeDigits opts.IncludeSymbols opts.ExcludeAmbiguous
  String.mk ((List.range len).map (fun i => charset.getD (draws i % charset.length) 'a'))

/-- State of the clipboard world seen by the embedded manager: the platform
clipboard (`clipboard.Unsupported` flag and the current content, with a read
failure subsumed under `supported = false`) together with the manager's
remembered `lastContent`. -/
structure ClipState where
  supported : Bool
  content : String
  lastContent : String
  deriving DecidableEq, Repr

/-- src/internal/utils/clipboard.go `ClipboardManager.Clear`: on an
unsupported clipboard return `ErrClipboardUnavailable` leaving all state
unchanged; otherwise read the clipboard, overwrite it with the empty string
if and only if it still equals `lastContent`, and in the supported case
always reset `lastContent` to the empty string. -/
def clipboardClear (s : ClipState) : ClipState × Option GoError :=
  if s.supported = false then (s, some .clipboardUnavailable)
  else if s.content = s.lastContent then
    ({ s with content := "", lastContent := "" }, none)
  else
    ({ s with lastContent := "" }, none)

/-- Concrete creation run used by the C1 witness. -/
def c1Out : Except GoError (MEKBundle × String × KeyringBackend) :=
  CreateMEKBundle (.available none) (List.replicate 32 0) (List.replicate 16 0)
    (List.replicate 32 0) (List.replicate 32 0) (List.replicate 32 0)
    (List.replicate 12 0) (List.replicate 12 0) "pw"

/-- Result of the concrete creation run (the fallback value is never used:
the run succeeds). -/
def c1Res : MEKBundle × String × KeyringBackend :=
  match c1Out with
  | .ok v => v
  | .error _ => (⟨[], [], [], []⟩, "", .unavailable)

/-- Decidable equality for `Except` results (used by concrete witnesses). -/
instance {e a : Type} [DecidableEq e] [DecidableEq a] : DecidableEq (Except e a) := fun x y =>
  match x, y with
  | .ok u, .ok v => if h : u = v then .isTrue (by rw [h]) else .isFalse (by simp [h])
  | .error u, .error v => if h : u = v then .isTrue (by rw [h]) else .isFalse (by simp [h])
  | .ok _, .error _ => .isFalse (by simp)
  | .error _, .ok _ => .isFalse (by simp)

/-- Concrete data for the C3 witness: a bundle whose phrase branch wraps
`c3Mek` under the key of a fixed valid mnemonic. -/
def c3Phrase : String := bip39NewMnemonic (List.replicate 16 0)

def c3PhraseKey : List Nat :=
  match PhraseToKey c3Phrase with
  | .ok k => k
  | .error _ => []

def c3Mek : List Nat := List.replicate 32 1

def c3Bundle : MEKBundle :=
  ⟨[3], [4], [9],
    List.replicate 12 0 ++ gcmSealData c3PhraseKey (List.replicate 12 0) c3Mek []⟩

def c3Out : Except GoError (MEKBundle × KeyringBackend) :=
  c3Bundle.ReEncryptMEKWithNewPassword (.available none) [6] (List.replicate 32 2)
    (List.replicate 12 0) c3Mek "new"

def c3Res : MEKBundle × KeyringBackend :=
  match c3Out with
  | .ok v => v
  | .error _ => (⟨[], [], [], []⟩, .unavailable)

theorem encBase_pos : 1 < encBase := by
  unfold encBase
  omega

theorem bitsVal_encNatAux : ∀ (fuel n : Nat), n ≤ fuel → bitsVal (encNatAux fuel n) = n := by
  intro fuel
  induction fuel with
  | zero => intro n h; simp only [encNatAux, bitsVal]; omega
  | succ f ih =>
    intro n h
    simp only [encNatAux]
    by_cases h0 : n = 0
    · simp [h0, bitsVal]
    · simp only [h0, if_false, bitsVal]
      have hdiv : n / encBase < n := Nat.div_lt_self (Nat.pos_of_ne_zero h0) encBase_pos
      rw [ih (n / encBase) (by omega)]
      exact Nat.mod_add_div n encBase

theorem bitsVal_encNat (n : Nat) : bitsVal (encNat n) = n :=
  bitsVal_encNatAux n n (Nat.le_refl n)

theorem encNat_inj {m n : Nat} (h : encNat m = encNat n) : m = n := by
  have := bitsVal_encNat m
  rw [h, bitsVal_encNat] at this
  omega

theorem encNatAux_digits_lt : ∀ (fuel n : Nat) (d : Nat),
    d ∈ encNatAux fuel n → d < encBase := by
  intro fuel
  induction fuel with
  | zero => intro n d h; simp [encNatAux] at h
  | succ f ih =>
    intro n d h
    simp only [encNatAux] at h
    by_cases h0 : n = 0
    · simp [h0] at h
    · simp only [h0, if_false, List.mem_cons] at h
      rcases h with h | h
      · exact h ▸ Nat.mod_lt n (by have := encBase_pos; omega)
      · exact ih (n / encBase) d h

theorem encNat_digits_lt {n : Nat} {d : Nat} (h : d ∈ encNat n) : d < encBase :=
  encNatAux_digits_lt n n d h

theorem quadVal_ne_zero {s : List Nat} (hs : s ≠ []) (hlast : s.getLast? ≠ some 0) :
    quadVal s ≠ 0 := by
  induction s with
  | nil => exact absurd rfl hs
  | cons d t ih =>
    cases t with
    | nil => simp [List.getLast?] at hlast; simp [quadVal]; omega
    | cons e u =>
      rw [List.getLast?_cons_cons] at hlast
      have := ih (by simp) hlast
      simp [quadVal] at this ⊢
      omega

theorem quadVal_inj : ∀ s1 s2 : List Nat,
    (∀ d ∈ s1, d < encBase + 1) → (∀ d ∈ s2, d < encBase + 1) →
    s1.getLast? ≠ some 0 → s2.getLast? ≠ some 0 →
    quadVal s1 = quadVal s2 → s1 = s2 := by
  intro s1
  induction s1 with
  | nil =>
    intro s2 _ h2 _ hl2 hv
    cases s2 with
    | nil => rfl
    | cons d t =>
      exfalso
      exact quadVal_ne_zero (by simp) hl2 (by rw [← hv]; rfl)
  | cons d t ih =>
    intro s2 h1 h2 hl1 hl2 hv
    cases s2 with
    | nil =>
      exfalso
      exact quadVal_ne_zero (by simp) hl1 (by rw [hv]; rfl)
    | cons e u =>
      have hd : d < encBase + 1 := h1 d (by simp)
      have he : e < encBase + 1 := h2 e (by simp)
      simp only [quadVal] at hv
      unfold encBase at hd he hv
      have hde : d = e := by omega
      have htu : quadVal t = quadVal u := by omega
      have ht : t = u := by
        cases t with
        | nil =>
          cases u with
          | nil => rfl
          | cons x y =>
            exfalso
            rw [List.getLast?_cons_cons] at hl2
            exact quadVal_ne_zero (by simp) hl2 (by rw [← htu]; rfl)
        | cons x y =>
          cases u with
          | nil =>
            exfalso
            rw [List.getLast?_cons_cons] at hl1
            exact quadVal_ne_zero (by simp) hl1 (by rw [htu]; rfl)
          | cons z w =>
            rw [List.getLast?_cons_cons] at hl1 hl2
            exact ih (z :: w) (fun a ha => h1 a (by simp [ha]))
              (fun a ha => h2 a (by simp [ha])) hl1 hl2 htu
      rw [hde, ht]

theorem encStream_digits_lt {l : List Nat} {d : Nat} (h : d ∈ encStream l) :
    d < encBase + 1 := by
  induction l with
  | nil => simp [encStream] at h
  | cons n t ih =>
    simp only [encStream, List.mem_append, List.mem_cons] at h
    rcases h with h | h | h
    · have := encNat_digits_lt h; omega
    · omega
    · exact ih h

theorem encStream_getLast {l : List Nat} : (encStream l).getLast? ≠ some 0 := by
  induction l with
  | nil => simp [encStream]
  | cons n t ih =>
    show (encNat n ++ encBase :: encStream t).getLast? ≠ some 0
    rw [List.getLast?_append_cons]
    cases h : encStream t with
    | nil =>
      simp only [List.getLast?_singleton, ne_eq, Option.some.injEq]
      have := encBase_pos
      omega
    | cons d u =>
      rw [h] at ih
      show (encBase :: d :: u).getLast? ≠ some 0
      rw [List.getLast?_cons_cons]
      exact ih

theorem encBase_not_mem_encNat {n : Nat} : encBase ∉ encNat n := by
  intro h
  have := encNat_digits_lt h
  omega

theorem append_sep_inj : ∀ a1 a2 r1 r2 : List Nat, encBase ∉ a1 → encBase ∉ a2 →
    a1 ++ encBase :: r1 = a2 ++ encBase :: r2 → a1 = a2 ∧ r1 = r2 := by
  intro a1
  induction a1 with
  | nil =>
    intro a2 r1 r2 _ h2 h
    cases a2 with
    | nil => simpa using h
    | cons x y =>
      exfalso
      simp only [List.nil_append, List.cons_append, List.cons.injEq] at h
      exact h2 (h.1 ▸ List.mem_cons_self x y)
  | cons x y ih =>
    intro a2 r1 r2 h1 h2 h
    cases a2 with
    | nil =>
      exfalso
      simp only [List.nil_append, List.cons_append, List.cons.injEq] at h
      exact h1 (h.1.symm ▸ List.mem_cons_self x y)
    | cons z w =>
      simp only [List.cons_append, List.cons.injEq] at h
      obtain ⟨hxz, hrest⟩ := h
      have := ih w r1 r2 (fun hm => h1 (List.mem_cons_of_mem x hm))
        (fun hm => h2 (List.mem_cons_of_mem z hm)) hrest
      exact ⟨by rw [hxz, this.1], this.2⟩

theorem encStream_inj : ∀ l1 l2 : List Nat, encStream l1 = encStream l2 → l1 = l2 := by
  intro l1
  induction l1 with
  | nil =>
    intro l2 h
    cases l2 with
    | nil => rfl
    | cons n t =>
      exfalso
      have : encStream [] = encStream (n :: t) := h
      simp only [encStream] at this
      exact (List.append_ne_nil_of_right_ne_nil (encNat n) (by simp)) this.symm
  | cons n t ih =>
    intro l2 h
    cases l2 with
    | nil =>
      exfalso
      have : encStream (n :: t) = encStream [] := h
      simp only [encStream] at this
      exact (List.append_ne_nil_of_right_ne_nil (encNat n) (by simp)) this
    | cons m u =>
      simp only [encStream] at h
      obtain ⟨hw, hr⟩ := append_sep_inj _ _ _ _ encBase_not_mem_encNat encBase_not_mem_encNat h
      rw [encNat_inj hw, ih u hr]

theorem byteCode_inj {l1 l2 : List Nat} (h : byteCode l1 = byteCode l2) : l1 = l2 :=
  encStream_inj l1 l2
    (quadVal_inj _ _ (fun _ => encStream_digits_lt) (fun _ => encStream_digits_lt)
      encStream_getLast encStream_getLast h)

theorem gcmTag_length (key nonce aad ct : List Nat) : (gcmTag key nonce aad ct).length = 16 := by
  simp [gcmTag]

theorem argon2IDKey_length (password salt : List Nat) :
    (argon2IDKey password salt Argon2Time Argon2Memory Argon2Threads Argon2KeyLen).length
      = KeySize := by
  simp [argon2IDKey, Argon2KeyLen, KeySize]

theorem argon2IDKey_inj {p1 s1 p2 s2 : List Nat} {t m th kl : Nat}
    (h : argon2IDKey p1 s1 t m th kl = argon2IDKey p2 s2 t m th kl) :
    p1 = p2 ∧ s1 = s2 := by
  simp only [argon2IDKey, List.cons.injEq] at h
  have hl := byteCode_inj h.1
  simp only [List.cons.injEq] at hl
  exact ⟨byteCode_inj hl.1, byteCode_inj hl.2.1⟩

theorem sha256Sum_length (data : List Nat) : (sha256Sum data).length = 32 := by
  simp [sha256Sum]

/-- AEAD round trip: decrypting an `Encrypt` blob with the same key returns
the plaintext. -/
theorem Decrypt_Encrypt (plaintext key nonce : List Nat)
    (hk : key.length = KeySize) (hn : nonce.length = NonceSize) :
    Decrypt (nonce ++ gcmSealData key nonce plaintext []) key = .ok plaintext := by
  have hlen : (gcmSealData key nonce plaintext []).length = plaintext.length + 16 := by
    simp [gcmSealData, gcmTag]
  rw [Decrypt]
  rw [if_neg (by omega)]
  rw [if_neg (by simp [hlen]; omega)]
  rw [List.take_left' hn, List.drop_left' hn]
  rw [gcmOpenData]
  rw [if_neg (by omega)]
  simp only [hlen, Nat.add_sub_cancel]
  have hct : (gcmSealData key nonce plaintext []).take plaintext.length = plaintext := by
    rw [gcmSealData, List.take_left]
  have htag : (gcmSealData key nonce plaintext []).drop plaintext.length
      = gcmTag key nonce [] plaintext := by
    rw [gcmSealData, List.drop_left]
  rw [hct, htag, if_pos rfl]

/-- AEAD authentication: decrypting an `Encrypt` blob with a different
32-byte key fails with the collapsed decryption error. -/
theorem Decrypt_Encrypt_wrong_key (plaintext key key2 nonce : List Nat)
    (hk : key.length = KeySize) (hk2 : key2.length = KeySize)
    (hn : nonce.length = NonceSize) (hne : key ≠ key2) :
    Decrypt (nonce ++ gcmSealData key nonce plaintext []) key2 = .error .decryptionFailed := by
  have hlen : (gcmSealData key nonce plaintext []).length = plaintext.length + 16 := by
    simp [gcmSealData, gcmTag]
  rw [Decrypt]
  rw [if_neg (by omega)]
  rw [if_neg (by simp [hlen]; omega)]
  rw [List.take_left' hn, List.drop_left' hn]
  rw [gcmOpenData]
  rw [if_neg (by omega)]
  simp only [hlen, Nat.add_sub_cancel]
  have hct : (gcmSealData key nonce plaintext []).take plaintext.length = plaintext := by
    rw [gcmSealData, List.take_left]
  have htag : (gcmSealData key nonce plaintext []).drop plaintext.length
      = gcmTag key nonce [] plaintext := by
    rw [gcmSealData, List.drop_left]
  rw [hct, htag]
  rw [if_neg (by
    intro hcontra
    simp only [gcmTag, List.cons.injEq] at hcontra
    exact hne (byteCode_inj hcontra.1))]

/-- Character-to-code round trip for valid code points (used for the ideal
models built over `Char`). -/
theorem charToNat_ofNat {n : Nat} (h : n < 55296) : (Char.ofNat n).toNat = n := by
  unfold Char.ofNat
  rw [dif_pos (Or.inl h)]
  simp [Char.ofNatAux, Char.toNat, UInt32.toNat, UInt32.ofNatCore]

theorem char_eq_of_toNat {c d : Char} (h : c.toNat = d.toNat) : c = d :=
  Char.ext (UInt32.ext h)

theorem goIsSpace_false_of_gt {x : Char} (h : 32 < x.toNat) : goIsSpace x = false := by
  unfold goIsSpace
  simp only [Bool.or_eq_false_iff, decide_eq_false_iff_not]
  exact ⟨⟨⟨⟨⟨fun he => absurd (he ▸ h) (by decide), fun he => absurd (he ▸ h) (by decide)⟩,
    fun he => absurd (he ▸ h) (by decide)⟩, fun he => absurd (he ▸ h) (by decide)⟩,
    fun he => absurd (he ▸ h) (by decide)⟩, fun he => absurd (he ▸ h) (by decide)⟩

theorem goLowerChar_isSpace (c : Char) : goIsSpace (goLowerChar c) = goIsSpace c := by
  unfold goLowerChar
  by_cases h : 65 ≤ c.toNat ∧ c.toNat ≤ 90
  · rw [if_pos h]
    have ht : (Char.ofNat (c.toNat + 32)).toNat = c.toNat + 32 := charToNat_ofNat (by omega)
    rw [goIsSpace_false_of_gt (by omega), goIsSpace_false_of_gt (by omega)]
  · rw [if_neg h]

theorem goLowerChar_idem (c : Char) : goLowerChar (goLowerChar c) = goLowerChar c := by
  unfold goLowerChar
  by_cases h : 65 ≤ c.toNat ∧ c.toNat ≤ 90
  · rw [if_pos h]
    have ht : (Char.ofNat (c.toNat + 32)).toNat = c.toNat + 32 := charToNat_ofNat (by omega)
    rw [if_neg (by omega)]
  · rw [if_neg h, if_neg h]

theorem chunkStep_space {c : Char} (h : goIsSpace c = true) (acc : List (List Char)) :
    chunkStep c acc = [] :: acc := by
  simp [chunkStep, h]

theorem chunkStep_nonspace_cons {c : Char} (h : goIsSpace c = false)
    (w : List Char) (ws : List (List Char)) : chunkStep c (w :: ws) = (c :: w) :: ws := by
  simp [chunkStep, h]

theorem chunkStep_nonspace_nil {c : Char} (h : goIsSpace c = false) :
    chunkStep c [] = [[c]] := by
  simp [chunkStep, h]

theorem chunksFoldr_ne_nil : ∀ (l : List Char) (init : List (List Char)),
    init ≠ [] → l.foldr chunkStep init ≠ [] := by
  intro l
  induction l with
  | nil => intro init h; simpa using h
  | cons c t ih =>
    intro init h
    rw [List.foldr_cons]
    cases hsp : goIsSpace c with
    | true => rw [chunkStep_space hsp]; simp
    | false =>
      cases hfo : t.foldr chunkStep init with
      | nil => exact absurd hfo (ih init h)
      | cons w ws => rw [chunkStep_nonspace_cons hsp]; simp

theorem chunksFoldr_acc_append : ∀ (l : List Char) (a : List Char) (rest : List (List Char)),
    l.foldr chunkStep (a :: rest) = l.foldr chunkStep [a] ++ rest := by
  intro l
  induction l with
  | nil => intro a rest; rfl
  | cons c t ih =>
    intro a rest
    rw [List.foldr_cons, List.foldr_cons, ih]
    cases hsp : goIsSpace c with
    | true => rw [chunkStep_space hsp, chunkStep_space hsp]; rfl
    | false =>
      cases hfo : t.foldr chunkStep [a] with
      | nil => exact absurd hfo (chunksFoldr_ne_nil t [a] (by simp))
      | cons w ws =>
        rw [List.cons_append, chunkStep_nonspace_cons hsp, chunkStep_nonspace_cons hsp]
        rfl

theorem chunksFoldr_chars_not_space : ∀ (l : List Char) (init : List (List Char)),
    (∀ w ∈ init, ∀ c ∈ w, goIsSpace c = false) →
    ∀ w ∈ l.foldr chunkStep init, ∀ c ∈ w, goIsSpace c = false := by
  intro l
  induction l with
  | nil => intro init h; exact h
  | cons c t ih =>
    intro init h w hw x hx
    have hr := ih init h
    rw [List.foldr_cons] at hw
    cases hsp : goIsSpace c with
    | true =>
      rw [chunkStep_space hsp] at hw
      rcases List.mem_cons.mp hw with rfl | hw2
      · simp at hx
      · exact hr w hw2 x hx
    | false =>
      cases hfo : t.foldr chunkStep init with
      | nil =>
        rw [hfo, chunkStep_nonspace_nil hsp] at hw
        rcases List.mem_singleton.mp hw with rfl
        rcases List.mem_singleton.mp hx with rfl
        exact hsp
      | cons w0 ws =>
        rw [hfo, chunkStep_nonspace_cons hsp] at hw
        rcases List.mem_cons.mp hw with rfl | hw2
        · rcases List.mem_cons.mp hx with rfl | hx0
          · exact hsp
          · exact hr w0 (hfo ▸ List.mem_cons_self w0 ws) x hx0
        · exact hr w (hfo ▸ List.mem_cons_of_mem w0 hw2) x hx

theorem chunksFoldr_map (f : Char → Char) (hf : ∀ c, goIsSpace (f c) = goIsSpace c) :
    ∀ (l : List Char) (init : List (List Char)),
    (l.map f).foldr chunkStep (init.map (List.map f))
      = (l.foldr chunkStep init).map (List.map f) := by
  intro l
  induction l with
  | nil => intro init; rfl
  | cons c t ih =>
    intro init
    rw [List.map_cons, List.foldr_cons, List.foldr_cons, ih]
    cases hsp : goIsSpace c with
    | true =>
      rw [chunkStep_space hsp, chunkStep_space (by rw [hf c]; exact hsp)]
      rfl
    | false =>
      cases hfo : t.foldr chunkStep init with
      | nil =>
        simp only [List.map_nil]
        rw [chunkStep_nonspace_nil hsp, chunkStep_nonspace_nil (by rw [hf c]; exact hsp)]
        simp
      | cons w ws =>
        simp only [List.map_cons]
        rw [chunkStep_nonspace_cons hsp, chunkStep_nonspace_cons (by rw [hf c]; exact hsp)]
        simp

theorem goFieldsList_map (f : Char → Char) (hf : ∀ c, goIsSpace (f c) = goIsSpace c)
    (l : List Char) : goFieldsList (l.map f) = (goFieldsList l).map (List.map f) := by
  unfold goFieldsList chunksRaw
  have hmap := chunksFoldr_map f hf l [[]]
  simp only [List.map_cons, List.map_nil] at hmap
  rw [hmap, List.filter_map]
  congr 1
  apply List.filter_congr
  intro w _
  simp [Function.comp]

theorem goFieldsList_cons_space {c : Char} (l : List Char) (h : goIsSpace c = true) :
    goFieldsList (c :: l) = goFieldsList l := by
  unfold goFieldsList chunksRaw
  rw [List.foldr_cons, chunkStep_space h, List.filter_cons_of_neg (by simp)]

theorem goFieldsList_dropWhile (l : List Char) :
    goFieldsList (l.dropWhile goIsSpace) = goFieldsList l := by
  induction l with
  | nil => rfl
  | cons c t ih =>
    by_cases hsp : goIsSpace c
    · rw [List.dropWhile_cons_of_pos hsp, ih, goFieldsList_cons_space t hsp]
    · rw [List.dropWhile_cons_of_neg hsp]

theorem goFieldsList_append_space {c : Char} (l : List Char) (h : goIsSpace c = true) :
    goFieldsList (l ++ [c]) = goFieldsList l := by
  unfold goFieldsList chunksRaw
  rw [List.foldr_append]
  have h1 : List.foldr chunkStep [[]] [c] = [[], []] := by
    rw [List.foldr_cons, List.foldr_nil, chunkStep_space h]
  rw [h1, chunksFoldr_acc_append l [] [[]], List.filter_append]
  simp

theorem goFieldsList_trimRight (l : List Char) :
    goFieldsList ((l.reverse.dropWhile goIsSpace).reverse) = goFieldsList l := by
  induction l using List.reverseRecOn with
  | nil => rfl
  | append_singleton t c ih =>
    rw [List.reverse_append]
    simp only [List.reverse_singleton, List.singleton_append]
    by_cases hsp : goIsSpace c
    · rw [List.dropWhile_cons_of_pos hsp, ih, goFieldsList_append_space t hsp]
    · rw [List.dropWhile_cons_of_neg hsp]
      simp

theorem goFieldsList_goTrimChars (l : List Char) :
    goFieldsList (goTrimChars l) = goFieldsList l := by
  unfold goTrimChars
  rw [goFieldsList_trimRight, goFieldsList_dropWhile]

theorem chunksFoldr_word_prepend {w : List Char} (hw : ∀ c ∈ w, goIsSpace c = false) :
    ∀ (rest : List Char) (init : List (List Char)) (w0 : List Char) (ws : List (List Char)),
    rest.foldr chunkStep init = w0 :: ws →
    (w ++ rest).foldr chunkStep init = (w ++ w0) :: ws := by
  induction w with
  | nil => intro rest init w0 ws h; simpa using h
  | cons c t ih =>
    intro rest init w0 ws h
    have hc : goIsSpace c = false := hw c (List.mem_cons_self c t)
    have ht : ∀ x ∈ t, goIsSpace x = false := fun x hx => hw x (List.mem_cons_of_mem c hx)
    rw [List.cons_append, List.foldr_cons, ih ht rest init w0 ws h,
      chunkStep_nonspace_cons hc, List.cons_append]

theorem goFieldsList_join (ws : List (List Char)) (hne : ∀ w ∈ ws, w ≠ [])
    (hsp : ∀ w ∈ ws, ∀ c ∈ w, goIsSpace c = false) :
    goFieldsList (goJoinSpace ws) = ws := by
  induction ws with
  | nil => rfl
  | cons w ws2 ih =>
    cases ws2 with
    | nil =>
      show goFieldsList w = [w]
      unfold goFieldsList chunksRaw
      have hp := chunksFoldr_word_prepend (hsp w (by simp)) [] [[]] [] [] rfl
      simp only [List.append_nil] at hp
      rw [hp, List.filter_cons_of_pos (by simpa using hne w (by simp)), List.filter_nil]
    | cons w2 ws3 =>
      show goFieldsList (w ++ ' ' :: goJoinSpace (w2 :: ws3)) = w :: w2 :: ws3
      unfold goFieldsList chunksRaw
      have hinner : (' ' :: goJoinSpace (w2 :: ws3)).foldr chunkStep [[]]
          = [] :: (goJoinSpace (w2 :: ws3)).foldr chunkStep [[]] := by
        rw [List.foldr_cons, chunkStep_space (by decide)]
      have hfo := chunksFoldr_word_prepend (hsp w (by simp)) _ [[]] [] _ hinner
      simp only [List.append_nil] at hfo
      rw [hfo, List.filter_cons_of_pos (by simpa using hne w (by simp))]
      have ihr : goFieldsList (goJoinSpace (w2 :: ws3)) = w2 :: ws3 :=
        ih (fun x hx => hne x (List.mem_cons_of_mem w hx))
          (fun x hx => hsp x (List.mem_cons_of_mem w hx))
      unfold goFieldsList chunksRaw at ihr
      rw [ihr]

theorem goFieldsList_mem_ne_nil {l : List Char} {w : List Char}
    (h : w ∈ goFieldsList l) : w ≠ [] := by
  have := List.of_mem_filter h
  simpa using this

theorem goFieldsList_mem_chars {l : List Char} {w : List Char} {c : Char}
    (hw : w ∈ goFieldsList l) (hc : c ∈ w) : goIsSpace c = false :=
  chunksFoldr_chars_not_space l [[]] (by simp) w (List.mem_of_mem_filter hw) c hc

/-- Decomposition of `NormalizePhrase`: the normalized phrase is the single
space join of the lowercased fields of the input. -/
theorem NormalizePhrase_eq (p : String) :
    NormalizePhrase p
      = String.mk (goJoinSpace ((goFieldsList p.data).map (List.map goLowerChar))) := by
  unfold NormalizePhrase
  rw [show (goTrimChars p.data).map goLowerChar
        = (goTrimChars p.data).map goLowerChar from rfl]
  rw [goFieldsList_map goLowerChar goLowerChar_isSpace, goFieldsList_goTrimChars]

theorem normalized_fields_ne_nil (p : String) :
    ∀ w ∈ (goFieldsList p.data).map (List.map goLowerChar), w ≠ [] := by
  intro w hw
  rcases List.mem_map.mp hw with ⟨w0, hw0, rfl⟩
  have := goFieldsList_mem_ne_nil hw0
  simpa using this

theorem normalized_fields_no_space (p : String) :
    ∀ w ∈ (goFieldsList p.data).map (List.map goLowerChar),
      ∀ c ∈ w, goIsSpace c = false := by
  intro w hw c hc
  rcases List.mem_map.mp hw with ⟨w0, hw0, rfl⟩
  rcases List.mem_map.mp hc with ⟨c0, hc0, rfl⟩
  rw [goLowerChar_isSpace]
  exact goFieldsList_mem_chars hw0 hc0

theorem NormalizePhrase_idem (p : String) :
    NormalizePhrase (NormalizePhrase p) = NormalizePhrase p := by
  conv_lhs => rw [NormalizePhrase_eq (NormalizePhrase p)]
  rw [NormalizePhrase_eq p]
  show String.mk (goJoinSpace ((goFieldsList
      (goJoinSpace ((goFieldsList p.data).map (List.map goLowerChar)))).map
        (List.map goLowerChar))) = _
  rw [goFieldsList_join _ (normalized_fields_ne_nil p) (normalized_fields_no_space p)]
  rw [List.map_map]
  congr 1
  congr 1
  apply List.map_congr_left
  intro w _
  show List.map goLowerChar (List.map goLowerChar w) = List.map goLowerChar w
  rw [List.map_map]
  apply List.map_congr_left
  intro c _
  exact goLowerChar_idem c

theorem PhraseToKey_NormalizePhrase (p : String) :
    PhraseToKey p = PhraseToKey (NormalizePhrase p) := by
  unfold PhraseToKey
  rw [NormalizePhrase_idem]

theorem goFields_NormalizePhrase (p : String) :
    goFields (NormalizePhrase p) = (goFields p).map goToLower := by
  rw [NormalizePhrase_eq p]
  unfold goFields
  show (goFieldsList
      (goJoinSpace ((goFieldsList p.data).map (List.map goLowerChar)))).map String.mk = _
  rw [goFieldsList_join _ (normalized_fields_ne_nil p) (normalized_fields_no_space p)]
  rw [List.map_map, List.map_map]
  apply List.map_congr_left
  intro w _
  rfl

theorem string_ext {s t : String} (h : s.data = t.data) : s = t :=
  congrArg String.mk h

theorem strBytes_inj {s t : String} (h : strBytes s = strBytes t) : s = t := by
  apply string_ext
  exact List.map_injective_iff.mpr (fun a b hab => char_eq_of_toNat hab) h

theorem base64_roundtrip (bs : List Nat) (hb : ∀ b ∈ bs, b < 256) :
    base64Decode (base64Encode bs) = .ok bs := by
  unfold base64Decode base64Encode
  congr 1
  show (bs.map Char.ofNat).map Char.toNat = bs
  rw [List.map_map]
  have hpt : ∀ b ∈ bs, (Char.toNat ∘ Char.ofNat) b = id b := by
    intro b hbm
    have : b < 55296 := by have := hb b hbm; omega
    simpa using charToNat_ofNat this
  rw [List.map_congr_left hpt, List.map_id]

theorem GetOrCreate_read_back {kr : KeyringBackend} {fresh s : List Nat} {kr2 : KeyringBackend}
    (hb : ∀ b ∈ fresh, b < 256)
    (h : GetOrCreateKeyringSecret kr fresh = .ok (s, kr2)) :
    GetKeyringSecret kr2 = .ok s := by
  cases kr with
  | available entry =>
    cases entry with
    | some v =>
      simp only [GetOrCreateKeyringSecret, GetKeyringSecret, providerGet,
        base64Decode, Except.ok.injEq, Prod.mk.injEq] at h
      obtain ⟨hs, hk⟩ := h
      rw [← hk]
      simp only [GetKeyringSecret, providerGet, base64Decode]
      rw [hs]
    | none =>
      simp only [GetOrCreateKeyringSecret, GetKeyringSecret, providerGet,
        CreateKeyringSecret, providerSet, if_pos, Except.ok.injEq, Prod.mk.injEq,
        reduceCtorEq, reduceIte] at h
      obtain ⟨hs, hk⟩ := h
      rw [← hk]
      simp only [GetKeyringSecret, providerGet]
      rw [← hs]
      exact base64_roundtrip fresh hb
  | unavailable =>
    simp [GetOrCreateKeyringSecret, GetKeyringSecret, providerGet] at h

theorem DeriveKey_length (password salt : List Nat) :
    (DeriveKey password salt).length = KeySize :=
  argon2IDKey_length password salt

theorem DeriveKeyWithKeyring_length (password salt keyringSecret : List Nat) :
    (DeriveKeyWithKeyring password salt keyringSecret).length = KeySize :=
  argon2IDKey_length (password ++ keyringSecret) salt

theorem DeriveKeyWithKeyring_ne_of_password_ne {pw1 pw2 salt ks : List Nat}
    (h : pw1 ≠ pw2) : DeriveKeyWithKeyring pw1 salt ks ≠ DeriveKeyWithKeyring pw2 salt ks := by
  intro he
  exact h (List.append_cancel_right (argon2IDKey_inj he).1)

theorem DeriveKey_ne_of_password_ne {pw1 pw2 salt : List Nat}
    (h : pw1 ≠ pw2) : DeriveKey pw1 salt ≠ DeriveKey pw2 salt := by
  intro he
  exact h (argon2IDKey_inj he).1

theorem DeriveKeyWithKeyring_ne_DeriveKey {pw salt ks : List Nat} (hks : ks ≠ []) :
    DeriveKeyWithKeyring pw salt ks ≠ DeriveKey pw salt := by
  intro he
  have := (argon2IDKey_inj he).1
  have hlen := congrArg List.length this
  simp only [List.length_append] at hlen
  exact hks (List.eq_nil_of_length_eq_zero (by omega))

theorem PhraseToKey_ok_length {p : String} {k : List Nat} (h : PhraseToKey p = .ok k) :
    k.length = KeySize := by
  unfold PhraseToKey at h
  by_cases hv : ValidateRecoveryPhrase (NormalizePhrase p)
  · simp only [hv, not_true, if_neg, ite_false, Except.ok.injEq, reduceIte] at h
    rw [← h]
    exact sha256Sum_length _
  · simp [hv] at h

theorem DecryptMEK_round {mek key nonce : List Nat}
    (hk : key.length = KeySize) (hn : nonce.length = NonceSize) :
    DecryptMEK (nonce ++ gcmSealData key nonce mek []) key = .ok mek := by
  unfold DecryptMEK
  rw [Decrypt_Encrypt mek key nonce hk hn]

theorem DecryptMEK_wrong_key {mek key key2 nonce : List Nat}
    (hk : key.length = KeySize) (hk2 : key2.length = KeySize)
    (hn : nonce.length = NonceSize) (hne : key ≠ key2) :
    DecryptMEK (nonce ++ gcmSealData key nonce mek []) key2 = .error .mekDecryptionFailed := by
  unfold DecryptMEK
  rw [Decrypt_Encrypt_wrong_key mek key key2 nonce hk hk2 hn hne]
  rfl

theorem EncryptMEK_ok {mek key nonce : List Nat} (hk : key.length = KeySize) :
    EncryptMEK mek key nonce = .ok (nonce ++ gcmSealData key nonce mek []) := by
  unfold EncryptMEK Encrypt
  rw [if_neg (by omega)]

theorem DecryptWithAAD_round (plaintext key aad nonce : List Nat)
    (hk : key.length = KeySize) (hn : nonce.length = NonceSize) :
    DecryptWithAAD (nonce ++ gcmSealData key nonce plaintext aad) key aad = .ok plaintext := by
  have hlen : (gcmSealData key nonce plaintext aad).length = plaintext.length + 16 := by
    simp [gcmSealData, gcmTag]
  rw [DecryptWithAAD]
  rw [if_neg (by omega)]
  rw [if_neg (by simp [hlen]; omega)]
  rw [List.take_left' hn, List.drop_left' hn]
  rw [gcmOpenData]
  rw [if_neg (by omega)]
  simp only [hlen, Nat.add_sub_cancel]
  have hct : (gcmSealData key nonce plaintext aad).take plaintext.length = plaintext := by
    rw [gcmSealData, List.take_left]
  have htag : (gcmSealData key nonce plaintext aad).drop plaintext.length
      = gcmTag key nonce aad plaintext := by
    rw [gcmSealData, List.drop_left]
  rw [hct, htag, if_pos rfl]

theorem DecryptWithAAD_wrong_aad (plaintext key aad1 aad2 nonce : List Nat)
    (hk : key.length = KeySize) (hn : nonce.length = NonceSize) (hne : aad1 ≠ aad2) :
    DecryptWithAAD (nonce ++ gcmSealData key nonce plaintext aad1) key aad2
      = .error .decryptionFailed := by
  have hlen : (gcmSealData key nonce plaintext aad1).length = plaintext.length + 16 := by
    simp [gcmSealData, gcmTag]
  rw [DecryptWithAAD]
  rw [if_neg (by omega)]
  rw [if_neg (by simp [hlen]; omega)]
  rw [List.take_left' hn, List.drop_left' hn]
  rw [gcmOpenData]
  rw [if_neg (by omega)]
  simp only [hlen, Nat.add_sub_cancel]
  have hct : (gcmSealData key nonce plaintext aad1).take plaintext.length = plaintext := by
    rw [gcmSealData, List.take_left]
  have htag : (gcmSealData key nonce plaintext aad1).drop plaintext.length
      = gcmTag key nonce aad1 plaintext := by
    rw [gcmSealData, List.drop_left]
  rw [hct, htag]
  rw [if_neg (by
    intro hcontra
    simp only [gcmTag, List.cons.injEq] at hcontra
    exact hne (byteCode_inj hcontra.2.2.1))]

/-- C2: `Seal` takes an optional AAD and authenticates it — opening a blob
sealed with `aad1` under a different `aad2` fails with the collapsed
decryption error, while opening under `aad1` returns the plaintext.
(`EncryptWithAAD`/`DecryptWithAAD` are repository functions whose
implementation is absent from src/; they are modelled from the spec.) -/
theorem C2_aad_authenticated (plaintext key aad1 aad2 nonce blob : List Nat)
    (hk : key.length = 32) (hn : nonce.length = 12) (hne : aad1 ≠ aad2)
    (henc : EncryptWithAAD plaintext key aad1 nonce = .ok blob) :
    DecryptWithAAD blob key aad2 = .error .decryptionFailed ∧
    DecryptWithAAD blob key aad1 = .ok plaintext := by
  unfold EncryptWithAAD at henc
  rw [if_neg (by simp [KeySize, hk])] at henc
  simp only [Except.ok.injEq] at henc
  subst henc
  exact ⟨DecryptWithAAD_wrong_aad plaintext key aad1 aad2 nonce hk hn hne,
    DecryptWithAAD_round plaintext key aad1 nonce hk hn⟩

/-- C2 witness. -/
theorem C2_aad_authenticated_witness :
    DecryptWithAAD (EncryptWithAAD [5] (List.replicate 32 0) [1] (List.replicate 12 0)
        |>.toOption.getD []) (List.replicate 32 0) [2] = .error .decryptionFailed ∧
    DecryptWithAAD (EncryptWithAAD [5] (List.replicate 32 0) [1] (List.replicate 12 0)
        |>.toOption.getD []) (List.replicate 32 0) [1] = .ok [5] :=
  C2_aad_authenticated [5] (List.replicate 32 0) [1] [2] (List.replicate 12 0) _
    (by decide) (by decide) (by decide) rfl

/-- C8: AEAD round trip — for every plaintext (the empty one included) and
every 32-byte key, `Open(Seal(plaintext, key), key) = plaintext`, and the
blob of the empty plaintext is exactly 28 bytes (12-byte nonce plus 16-byte
tag). -/
theorem C8_aead_roundtrip (plaintext key nonce blob : List Nat)
    (hk : key.length = 32) (hn : nonce.length = 12)
    (henc : Encrypt plaintext key nonce = .ok blob) :
    Decrypt blob key = .ok plaintext ∧ (plaintext = [] → blob.length = 28) := by
  unfold Encrypt at henc
  rw [if_neg (by simp [KeySize, hk])] at henc
  simp only [Except.ok.injEq] at henc
  subst henc
  refine ⟨Decrypt_Encrypt plaintext key nonce hk hn, ?_⟩
  intro hpt
  subst hpt
  simp [gcmSealData, gcmTag, hn]

/-- C8 witness. -/
theorem C8_aead_roundtrip_witness :
    Decrypt (Encrypt [] (List.replicate 32 0) (List.replicate 12 0) |>.toOption.getD [])
        (List.replicate 32 0) = .ok [] ∧
    (Encrypt [] (List.replicate 32 0) (List.replicate 12 0) |>.toOption.getD []).length
        = 28 := by
  have h := C8_aead_roundtrip [] (List.replicate 32 0) (List.replicate 12 0) _
    (by decide) (by decide) rfl
  exact ⟨h.1, h.2 rfl⟩

/-- C9: `PhraseToKey` is invariant under normalization, `NormalizePhrase` is
idempotent, and normalization preserves word order (the fields of the
normalized phrase are exactly the lowercased fields of the input, in
order). -/
theorem C9_normalize_invariant (p : String) :
    PhraseToKey p = PhraseToKey (NormalizePhrase p) ∧
    NormalizePhrase (NormalizePhrase p) = NormalizePhrase p ∧
    goFields (NormalizePhrase p) = (goFields p).map goToLower :=
  ⟨PhraseToKey_NormalizePhrase p, NormalizePhrase_idem p, goFields_NormalizePhrase p⟩

/-- C5 counterexample: `DecryptMEKWithPhrase` on a syntactically invalid
phrase (here the empty phrase, which fails the BIP-39 validation) surfaces
`ErrInvalidMnemonic` itself — it is NOT collapsed into the user-visible
wrong-credential error `ErrMEKDecryptionFailed`. -/
theorem C5_counterexample :
    (MEKBundle.mk [] [] [] []).DecryptMEKWithPhrase "" = .error .invalidMnemonic ∧
    GoError.invalidMnemonic ≠ GoError.mekDecryptionFailed := by
  exact ⟨rfl, by decide⟩

/-- C5 amended: for every phrase failing the BIP-39 validation after
normalization, `DecryptMEKWithPhrase` fails with the distinct
`ErrInvalidMnemonic` error (the collapsing into `WrongCredential` claimed by
the spec does not happen at this boundary). -/
theorem C5_invalid_phrase_error (b : MEKBundle) (phrase : String)
    (hv : ValidateRecoveryPhrase (NormalizePhrase phrase) = false) :
    b.DecryptMEKWithPhrase phrase = .error .invalidMnemonic := by
  unfold MEKBundle.DecryptMEKWithPhrase PhraseToKey
  simp [hv]

/-- C5 witness. -/
theorem C5_invalid_phrase_error_witness :
    ValidateRecoveryPhrase (NormalizePhrase "not a phrase") = false ∧
    (MEKBundle.mk [0] [0] [0] [0]).DecryptMEKWithPhrase "not a phrase"
      = .error .invalidMnemonic :=
  ⟨by decide, C5_invalid_phrase_error (MEKBundle.mk [0] [0] [0] [0]) "not a phrase" (by decide)⟩

/-- C6 counterexample: a stored keyring value whose decoding has length 1 is
returned as-is by `GetKeyringSecret` — there is no 32-byte length
validation. -/
theorem C6_counterexample :
    GetKeyringSecret (.available (some (base64Encode [0]))) = .ok [0] ∧
    ([0] : List Nat).length ≠ 32 := by
  exact ⟨rfl, by decide⟩

/-- C6 amended: `GetKeyringSecret` fetches the stored value and
base64-decodes it, returning the decoded bytes whatever their length; it
never checks the decoded length against 32. -/
theorem C6_no_length_validation (bs : List Nat) (hb : ∀ b ∈ bs, b < 256) :
    GetKeyringSecret (.available (some (base64Encode bs))) = .ok bs := by
  simp only [GetKeyringSecret, providerGet]
  rw [base64_roundtrip bs hb]

/-- C6 witness. -/
theorem C6_no_length_validation_witness :
    GetKeyringSecret (.available (some (base64Encode [1, 2, 3]))) = .ok [1, 2, 3] :=
  C6_no_length_validation [1, 2, 3] (by decide)

/-- C10 counterexample: a `Clear` call on an unsupported clipboard returns
`ErrClipboardUnavailable` and does NOT forget `lastCopied` — refuting the
claim that every call to `Clear` resets `lastCopied`. -/
theorem C10_counterexample :
    (clipboardClear ⟨false, "other", "secret"⟩).1.lastContent = "secret" ∧
    (clipboardClear ⟨false, "other", "secret"⟩).2 = some .clipboardUnavailable ∧
    ("secret" : String) ≠ "" := by
  exact ⟨by decide, by decide, by decide⟩

/-- C10 amended: when the clipboard is available, `Clear` overwrites the
clipboard with the empty string if and only if its content still equals
`lastCopied`, and always forgets `lastCopied`; when the clipboard is
unavailable, `Clear` returns the unavailability error and leaves all state
(including `lastCopied`) unchanged. -/
theorem C10_clear_behavior (s : ClipState) :
    (s.supported = true →
      (clipboardClear s).1.lastContent = "" ∧
      (clipboardClear s).1.content = (if s.content = s.lastContent then "" else s.content) ∧
      (clipboardClear s).2 = none) ∧
    (s.supported = false → clipboardClear s = (s, some .clipboardUnavailable)) := by
  constructor
  · intro hs
    unfold clipboardClear
    rw [if_neg (by simp [hs])]
    by_cases hc : s.content = s.lastContent
    · rw [if_pos hc, if_pos hc]
      exact ⟨rfl, rfl, rfl⟩
    · rw [if_neg hc, if_neg hc]
      exact ⟨rfl, rfl, rfl⟩
  · intro hs
    unfold clipboardClear
    rw [if_pos hs]

/-- C10 witness. -/
theorem C10_clear_behavior_witness :
    (clipboardClear ⟨true, "x", "x"⟩).1.lastContent = "" ∧
    (clipboardClear ⟨true, "x", "x"⟩).1.content = "" := by
  have h := (C10_clear_behavior ⟨true, "x", "x"⟩).1 rfl
  exact ⟨h.1, by rw [h.2.1]; decide⟩

theorem buildCharset_ne_nil : ∀ b1 b2 b3 b4 b5 : Bool, buildCharset b1 b2 b3 b4 b5 ≠ [] := by
  decide

theorem foldl_filter_mem (amb : List Char) : ∀ (cs : List Char) (c : Char),
    c ∈ amb.foldl (fun acc a => acc.filter (fun x => x ≠ a)) cs →
    c ∈ cs ∧ ∀ a ∈ amb, c ≠ a := by
  induction amb with
  | nil => intro cs c h; exact ⟨h, by simp⟩
  | cons a amb2 ih =>
    intro cs c h
    rw [List.foldl_cons] at h
    obtain ⟨hmem, hrest⟩ := ih (cs.filter (fun x => x ≠ a)) c h
    have hcs := List.mem_of_mem_filter hmem
    have hca : c ≠ a := by
      have := List.of_mem_filter hmem
      simpa using this
    refine ⟨hcs, ?_⟩
    intro x hx
    rcases List.mem_cons.mp hx with rfl | hx2
    · exact hca
    · exact hrest x hx2

theorem GeneratePassword_mem (opts : GeneratorOptions) (draws : Nat → Nat) :
    ∀ c ∈ (GeneratePassword opts draws).data,
      c ∈ buildCharset opts.IncludeLowercase opts.IncludeUppercase opts.IncludeDigits
        opts.IncludeSymbols opts.ExcludeAmbiguous := by
  intro c hc
  unfold GeneratePassword at hc
  rcases List.mem_map.mp hc with ⟨i, _, rfl⟩
  have hnn := buildCharset_ne_nil opts.IncludeLowercase opts.IncludeUppercase
    opts.IncludeDigits opts.IncludeSymbols opts.ExcludeAmbiguous
  have hpos : 0 < (buildCharset opts.IncludeLowercase opts.IncludeUppercase
      opts.IncludeDigits opts.IncludeSymbols opts.ExcludeAmbiguous).length :=
    List.length_pos.mpr hnn
  have hlt : draws i % (buildCharset opts.IncludeLowercase opts.IncludeUppercase
      opts.IncludeDigits opts.IncludeSymbols opts.ExcludeAmbiguous).length
      < (buildCharset opts.IncludeLowercase opts.IncludeUppercase
      opts.IncludeDigits opts.IncludeSymbols opts.ExcludeAmbiguous).length :=
    Nat.mod_lt _ hpos
  rw [List.getD_eq_getElem _ 'a' hlt]
  exact List.getElem_mem hlt

/-- C7 counterexample: with `Length = 0` the generated password has the
default length 16, not `clamp(0, 1, 128) = 1` as the claim states. -/
theorem C7_counterexample :
    (GeneratePassword ⟨0, false, false, false, false, false⟩ (fun _ => 0)).length = 16 ∧
    (16 : Int) ≠ max 1 (min (0 : Int) 128) := by
  exact ⟨rfl, by decide⟩

/-- C7 amended: the output length is `o.length` clamped to at most 128, with
every length below 1 (not only out-of-range ones) replaced by the DEFAULT 16;
every character of the output belongs to the configured class set (lowercase
plus digits when all class flags are false) minus the ambiguous characters
`0O1lI` when `excludeAmbiguous` is set. -/
theorem C7_generator_constraints (opts : GeneratorOptions) (draws : Nat → Nat) :
    (GeneratePassword opts draws).length
        = (if opts.Length < 1 then 16 else if opts.Length > 128 then 128
            else opts.Length.toNat) ∧
    (∀ c ∈ (GeneratePassword opts draws).data,
      c ∈ buildCharset opts.IncludeLowercase opts.IncludeUppercase opts.IncludeDigits
        opts.IncludeSymbols opts.ExcludeAmbiguous) ∧
    (opts.ExcludeAmbiguous = true →
      ∀ c ∈ (GeneratePassword opts draws).data, c ∉ ambiguousChars) := by
  refine ⟨?_, GeneratePassword_mem opts draws, ?_⟩
  · show ((List.range _).map _).length = _
    rw [List.length_map, List.length_range]
  · intro hamb c hc hmem
    have h := GeneratePassword_mem opts draws c hc
    rw [hamb] at h
    unfold buildCharset at h
    simp only [reduceIte] at h
    exact (foldl_filter_mem ambiguousChars _ c h).2 c hmem rfl

/-- C7 witness. -/
theorem C7_generator_constraints_witness :
    (GeneratePassword ⟨4, false, false, false, false, true⟩ (fun _ => 0)).length = 4 ∧
    'a' ∈ buildCharset false false false false true ∧
    ('0' ∈ (GeneratePassword ⟨4, false, false, false, false, true⟩ (fun _ => 0)).data
      → False) := by
  have h := C7_generator_constraints ⟨4, false, false, false, false, true⟩ (fun _ => 0)
  refine ⟨by rw [h.1]; decide, by decide, ?_⟩
  intro h0
  exact h.2.2 rfl '0' h0 (by decide)

theorem GetOrCreate_error {kr : KeyringBackend} {fresh : List Nat} {e : GoError}
    (h : GetOrCreateKeyringSecret kr fresh = .error e) :
    GetKeyringSecret kr = .error e ∧ e = .keyringNotAvailable := by
  cases kr with
  | available entry =>
    cases entry with
    | some v => simp [GetOrCreateKeyringSecret, GetKeyringSecret, providerGet,
        base64Decode] at h
    | none => simp [GetOrCreateKeyringSecret, GetKeyringSecret, providerGet,
        CreateKeyringSecret, providerSet] at h
  | unavailable =>
    simp only [GetOrCreateKeyringSecret, GetKeyringSecret, providerGet,
      reduceCtorEq, reduceIte, Except.error.injEq] at h
    simp [GetKeyringSecret, providerGet, ← h]

/-- C4 counterexample: with the keyring UNAVAILABLE (not merely empty),
`GetKeyringSecret` fails with `ErrKeyringNotAvailable` — the secret is not
known to be absent — yet `DecryptMEKWithPassword` silently derives with the
password-only `DeriveKey` and successfully unlocks a legacy bundle, refuting
"the fallback is attempted only when the keyring secret is absent (not
stored)". -/
theorem C4_counterexample :
    GetKeyringSecret .unavailable = .error .keyringNotAvailable ∧
    GoError.keyringNotAvailable ≠ GoError.keyringSecretNotFound ∧
    (MEKBundle.mk [1] [2]
        (List.replicate 12 0 ++ gcmSealData (DeriveKey (strBytes "pw") [1])
          (List.replicate 12 0) [5] [])
        []).DecryptMEKWithPassword .unavailable "pw" = .ok [5] := by
  refine ⟨rfl, by decide, ?_⟩
  show DecryptMEK
      (List.replicate 12 0 ++ gcmSealData (DeriveKey (strBytes "pw") [1])
        (List.replicate 12 0) [5] [])
      (DeriveKey (strBytes "pw") [1]) = Except.ok [5]
  exact DecryptMEK_round (DeriveKey_length _ _) (by decide)

/-- C4 amended: the unlock path performs exactly one derivation; it uses the
keyring-combined key exactly when `GetKeyringSecret` succeeds (so with a
stored secret there is no silent password-only derivation), and it falls
back to the password-only `DeriveKey` whenever `GetKeyringSecret` fails for
ANY reason — secret absent OR keyring unavailable.  The unlock path never
mutates the bundle, so a successful fallback cannot re-encrypt it. -/
theorem C4_fallback_behavior (kr : KeyringBackend) (password : String)
    (salt saltPhrase encPhrase mek nonce : List Nat)
    (hn : nonce.length = NonceSize) :
    (∀ e, GetKeyringSecret kr = .error e →
      (MEKBundle.mk salt saltPhrase
        (nonce ++ gcmSealData (DeriveKey (strBytes password) salt) nonce mek [])
        encPhrase).DecryptMEKWithPassword kr password = .ok mek) ∧
    (∀ ks, GetKeyringSecret kr = .ok ks →
      (MEKBundle.mk salt saltPhrase
        (nonce ++ gcmSealData (DeriveKeyWithKeyring (strBytes password) salt ks) nonce mek [])
        encPhrase).DecryptMEKWithPassword kr password = .ok mek ∧
      (ks ≠ [] →
        (MEKBundle.mk salt saltPhrase
          (nonce ++ gcmSealData (DeriveKey (strBytes password) salt) nonce mek [])
          encPhrase).DecryptMEKWithPassword kr password
            = .error .mekDecryptionFailed)) := by
  constructor
  · intro e he
    unfold MEKBundle.DecryptMEKWithPassword
    rw [he]
    exact DecryptMEK_round (DeriveKey_length _ _) hn
  · intro ks hks
    constructor
    · unfold MEKBundle.DecryptMEKWithPassword
      rw [hks]
      exact DecryptMEK_round (DeriveKeyWithKeyring_length _ _ _) hn
    · intro hksne
      unfold MEKBundle.DecryptMEKWithPassword
      rw [hks]
      exact DecryptMEK_wrong_key (DeriveKey_length _ _)
        (DeriveKeyWithKeyring_length _ _ _) hn
        (Ne.symm (DeriveKeyWithKeyring_ne_DeriveKey hksne))

/-- C4 witness. -/
theorem C4_fallback_behavior_witness :
    (MEKBundle.mk [1] [2]
        (List.replicate 12 0 ++ gcmSealData (DeriveKeyWithKeyring (strBytes "pw") [1] [7])
          (List.replicate 12 0) [5] [])
        []).DecryptMEKWithPassword (.available (some (base64Encode [7]))) "pw" = .ok [5] ∧
    (MEKBundle.mk [1] [2]
        (List.replicate 12 0 ++ gcmSealData (DeriveKey (strBytes "pw") [1])
          (List.replicate 12 0) [5] [])
        []).DecryptMEKWithPassword (.available (some (base64Encode [7]))) "pw"
          = .error .mekDecryptionFailed := by
  have h := (C4_fallback_behavior (.available (some (base64Encode [7]))) "pw"
    [1] [2] [] [5] (List.replicate 12 0) (by decide)).2 [7] rfl
  exact ⟨h.1, h.2 (by decide)⟩

/-- C1: for every successfully created bundle, the password path and the
phrase path both decrypt to the very 32-byte MEK that was generated at
creation. -/
theorem C1_create_then_unlock (kr : KeyringBackend)
    (mek entropy saltPassword saltPhrase freshSecret noncePassword noncePhrase : List Nat)
    (password : String) (b : MEKBundle) (phrase : String) (kr2 : KeyringBackend)
    (hmek : mek.length = MEKSize)
    (hfresh : ∀ x ∈ freshSecret, x < 256)
    (hnp : noncePassword.length = NonceSize) (hnr : noncePhrase.length = NonceSize)
    (h : CreateMEKBundle kr mek entropy saltPassword saltPhrase freshSecret
      noncePassword noncePhrase password = .ok (b, phrase, kr2)) :
    b.DecryptMEKWithPassword kr2 password = .ok mek ∧
    b.DecryptMEKWithPhrase phrase = .ok mek := by
  unfold CreateMEKBundle at h
  split at h
  · exact absurd h (by simp)
  · rename_i ksec krNext hgo
    split at h
    · exact absurd h (by simp)
    · rename_i phraseKey hpk
      rw [EncryptMEK_ok (DeriveKeyWithKeyring_length (strBytes password) saltPassword ksec),
        EncryptMEK_ok (PhraseToKey_ok_length hpk)] at h
      simp only [Except.ok.injEq, Prod.mk.injEq] at h
      obtain ⟨hb, hph, hkr⟩ := h
      subst hph hkr
      rw [← hb]
      constructor
      · unfold MEKBundle.DecryptMEKWithPassword
        rw [GetOrCreate_read_back hfresh hgo]
        exact DecryptMEK_round (DeriveKeyWithKeyring_length _ _ _) hnp
      · unfold MEKBundle.DecryptMEKWithPhrase
        rw [hpk]
        exact DecryptMEK_round (PhraseToKey_ok_length hpk) hnr

/-- C1 witness. -/
theorem C1_create_then_unlock_witness :
    c1Res.1.DecryptMEKWithPassword c1Res.2.2 "pw" = .ok (List.replicate 32 0) ∧
    c1Res.1.DecryptMEKWithPhrase c1Res.2.1 = .ok (List.replicate 32 0) :=
  C1_create_then_unlock (.available none) (List.replicate 32 0) (List.replicate 16 0)
    (List.replicate 32 0) (List.replicate 32 0) (List.replicate 32 0)
    (List.replicate 12 0) (List.replicate 12 0) "pw" c1Res.1 c1Res.2.1 c1Res.2.2
    (by decide) (by decide) (by decide) (by decide) rfl

/-- C3: password rotation replaces only the password salt and the password
ciphertext; afterwards the new password decrypts to the original MEK, the
old (different) password fails with the wrong-credential error, and the
recovery phrase still decrypts to the original MEK. -/
theorem C3_rotation_frame (b : MEKBundle) (kr : KeyringBackend)
    (newSalt freshSecret nonce mek : List Nat) (oldPassword newPassword phrase : String)
    (b2 : MEKBundle) (kr2 : KeyringBackend)
    (hfresh : ∀ x ∈ freshSecret, x < 256)
    (hn : nonce.length = NonceSize)
    (hne : oldPassword ≠ newPassword)
    (h : b.ReEncryptMEKWithNewPassword kr newSalt freshSecret nonce mek newPassword
      = .ok (b2, kr2))
    (hphrase : b.DecryptMEKWithPhrase phrase = .ok mek) :
    b2.SaltPhrase = b.SaltPhrase ∧
    b2.EncryptedMEKPhrase = b.EncryptedMEKPhrase ∧
    b2.DecryptMEKWithPassword kr2 newPassword = .ok mek ∧
    b2.DecryptMEKWithPassword kr2 oldPassword = .error .mekDecryptionFailed ∧
    b2.DecryptMEKWithPhrase phrase = .ok mek := by
  have hpwne : strBytes oldPassword ≠ strBytes newPassword :=
    fun hs => hne (strBytes_inj hs)
  unfold MEKBundle.ReEncryptMEKWithNewPassword at h
  split at h
  · rename_i ksec krNext hgo
    rw [EncryptMEK_ok (DeriveKeyWithKeyring_length (strBytes newPassword) newSalt ksec)] at h
    simp only [Except.ok.injEq, Prod.mk.injEq] at h
    obtain ⟨hb2, hkr⟩ := h
    subst hkr
    rw [← hb2]
    refine ⟨rfl, rfl, ?_, ?_, ?_⟩
    · unfold MEKBundle.DecryptMEKWithPassword
      rw [GetOrCreate_read_back hfresh hgo]
      exact DecryptMEK_round (DeriveKeyWithKeyring_length _ _ _) hn
    · unfold MEKBundle.DecryptMEKWithPassword
      rw [GetOrCreate_read_back hfresh hgo]
      exact DecryptMEK_wrong_key (DeriveKeyWithKeyring_length _ _ _)
        (DeriveKeyWithKeyring_length _ _ _) hn
        (DeriveKeyWithKeyring_ne_of_password_ne (Ne.symm hpwne))
    · unfold MEKBundle.DecryptMEKWithPhrase at hphrase ⊢
      exact hphrase
  · rename_i e hgo
    obtain ⟨hget, he⟩ := GetOrCreate_error hgo
    rw [EncryptMEK_ok (DeriveKey_length (strBytes newPassword) newSalt)] at h
    simp only [Except.ok.injEq, Prod.mk.injEq] at h
    obtain ⟨hb2, hkr⟩ := h
    subst hkr
    rw [← hb2]
    refine ⟨rfl, rfl, ?_, ?_, ?_⟩
    · unfold MEKBundle.DecryptMEKWithPassword
      rw [hget]
      exact DecryptMEK_round (DeriveKey_length _ _) hn
    · unfold MEKBundle.DecryptMEKWithPassword
      rw [hget]
      exact DecryptMEK_wrong_key (DeriveKey_length _ _) (DeriveKey_length _ _) hn
        (DeriveKey_ne_of_password_ne (Ne.symm hpwne))
    · unfold MEKBundle.DecryptMEKWithPhrase at hphrase ⊢
      exact hphrase

/-- C3 witness. -/
theorem C3_rotation_frame_witness :
    c3Res.1.SaltPhrase = c3Bundle.SaltPhrase ∧
    c3Res.1.DecryptMEKWithPassword c3Res.2 "new" = .ok c3Mek ∧
    c3Res.1.DecryptMEKWithPassword c3Res.2 "old" = .error .mekDecryptionFailed ∧
    c3Res.1.DecryptMEKWithPhrase c3Phrase = .ok c3Mek := by
  have h := C3_rotation_frame c3Bundle (.available none) [6] (List.replicate 32 2)
    (List.replicate 12 0) c3Mek "old" "new" c3Phrase c3Res.1 c3Res.2
    (by decide) (by decide) (by decide) rfl (by decide)
  exact ⟨h.1, h.2.2.1, h.2.2.2.1, h.2.2.2.2⟩
